import Mathlib

/-!
A formal model of the NVCategory dictionary-encoding engine of the nvstrings
repository.  The repository sources contain only the interface declaration
(`NVCategory.h`); the implementation translation unit is not present, so the
behaviour of every operation is modelled from the design document (spec.md),
faithful to its words, as marked on each definition.

Strings are modelled as byte sequences (`List Nat`), rows of a String Value
Source as `Option` of a byte sequence (`none` = null), and the engine as a
structure pairing the Key Table with the Code Map.
-/

/-- A string value: a sequence of bytes. -/
abbrev Bytes := List Nat

/-- One row of a String Value Source: a byte string, or null. -/
abbrev Row := Option Bytes

/-- Error signal for operations that must fail fast on caller misuse
(out-of-bounds row index or gather position), kept distinct from the
not-found / null sentinel values returned inside successful results. -/
inductive CatError where
  | outOfBounds
  deriving DecidableEq, Repr

/-- Category Engine instance: a Key Table (deduplicated sorted unique
non-null values) paired with a Code Map (one entry per original row, a key
code or the null sentinel, modelled as `none`).  Modelled from the spec:
the `NVCategoryImpl` implementation is absent from the sources, the data
model follows section 3 of the design document. -/
structure NVCategory where
  keys : List Bytes
  values : List (Option Nat)
  deriving DecidableEq, Repr

namespace NVCategory

/-- Position of a value in a key list: `some i` when the value equals entry
`i` of the list (first occurrence), `none` when absent. -/
def lookupCode : List Bytes → Bytes → Option Nat
  | [], _ => none
  | k :: ks, s => if s = k then some 0 else (lookupCode ks s).map (fun j => j + 1)

/-- Modelled from the spec (section 4.1): the Key Table of an input is the
list of its distinct non-null values, sorted ascending by byte/lexicographic
order. -/
def sortedKeys (rows : List Row) : List Bytes :=
  List.insertionSort (fun a b => a ≤ b) (rows.filterMap id).dedup

/-- Modelled from the spec (section 4.1): construction ingests a String
Value Source, sorts and deduplicates the non-null values to build the Key
Table, then maps every input row to the position of its value in the Key
Table (null sentinel for null rows) to build the Code Map. -/
def create_from_rows (rows : List Row) : NVCategory :=
  { keys := sortedKeys rows,
    values := rows.map (fun r => r.bind (lookupCode (sortedKeys rows))) }

/-- Number of rows (`NVCategory::size`). -/
def size (c : NVCategory) : Nat := c.values.length

/-- Number of keys (`NVCategory::keys_size`). -/
def keys_size (c : NVCategory) : Nat := c.keys.length

/-- Bulk Code Map export (`NVCategory::get_values`); the memory-space flag
of the C++ interface is a transport concern and is not modelled. -/
def get_values (c : NVCategory) : List (Option Nat) := c.values

/-- Key Table export (`NVCategory::get_keys`). -/
def get_keys (c : NVCategory) : List Bytes := c.keys

/-- Modelled from the spec (section 7): the signed-integer export of an
optional code: a valid code is exported as itself (non-negative), the null /
not-found sentinel as the reserved negative value -1. -/
def codeToInt : Option Nat → Int
  | some code => (code : Int)
  | none => -1

/-- Modelled from the spec (section 4.2): code-by-row lookup
(`NVCategory::get_value(unsigned int)`): returns the Code Map entry at the
row (the null sentinel exported as the negative value -1), and fails fast
with a bounds error, distinct from any sentinel, when the row index is not
below `size`. -/
def get_value (c : NVCategory) (i : Nat) : Except CatError Int :=
  if i < c.values.length then
    .ok (codeToInt (c.values.getD i none))
  else .error .outOfBounds

/-- Modelled from the spec (section 4.2): code-by-string lookup
(`NVCategory::get_value(const char*)`): the code of the key equal to the
given value when present in the Key Table, else the negative not-found
sentinel -1 (a signal, not a failure). -/
def get_value_str (c : NVCategory) (s : Bytes) : Int :=
  codeToInt (lookupCode c.keys s)

/-- Modelled from the spec (sections 4.2, 5): reverse lookup by code
(`NVCategory::get_indexes_for(unsigned int)`): every row index whose Code
Map entry equals the code, in ascending row-index order. -/
def get_indexes_for (c : NVCategory) (code : Nat) : List Nat :=
  (List.range c.values.length).filter (fun i => c.values.getD i none == some code)

/-- Modelled from the spec (section 4.2): reverse lookup by string
(`NVCategory::get_indexes_for(const char*)`): resolves the string to its
key code first; empty result when the key does not exist. -/
def get_indexes_for_str (c : NVCategory) (s : Bytes) : List Nat :=
  match lookupCode c.keys s with
  | some code => get_indexes_for c code
  | none => []

/-- Modelled from the spec (section 4.5): full reconstruction
(`NVCategory::to_strings`): entry `i` is the key text addressed by Code Map
entry `i`, or null for the null sentinel, in original row order. -/
def to_strings (c : NVCategory) : List Row :=
  c.values.map (fun e => e.bind (fun code => c.keys[code]?))

/-- Modelled from the spec (section 4.4): `NVCategory::add_strings` builds a
wholly new instance over the original row sequence followed by the new rows,
re-running the same dedup/map pipeline, so its Key Table is the re-sorted
union of the keys and the genuinely new distinct values and its codes are
recomputed from scratch. -/
def add_strings (c : NVCategory) (new : List Row) : NVCategory :=
  create_from_rows (to_strings c ++ new)

/-- Modelled from the spec (section 4.4): `NVCategory::remove_strings`
builds a wholly new instance over the original rows with every row whose
value matches a value to remove deleted, keys and codes recomputed from the
surviving rows. -/
def remove_strings (c : NVCategory) (rem : List Bytes) : NVCategory :=
  create_from_rows ((to_strings c).filter (fun r =>
    match r with
    | some s => !(rem.contains s)
    | none => true))

/-- Modelled from the spec (section 4.3): `NVCategory::create_null_bitarray`
produces one bit per original row, set exactly when that row's Code Map
entry is the null sentinel; with the caller-selectable `emptyIsNull` policy,
rows whose value is a zero-length non-null string are also marked.  The
logical bit sequence is modelled; bit packing into bytes is a memory-layout
concern. -/
def create_null_bitarray (c : NVCategory) (emptyIsNull : Bool) : List Bool :=
  c.values.map (fun e =>
    match e with
    | none => true
    | some code =>
        emptyIsNull && (match c.keys[code]? with
          | some k => k.isEmpty
          | none => false))

/-- Modelled from the spec (sections 4.5, 8.9): `NVCategory::gather_strings`
selects Code Map rows by a caller-given position list, preserving caller
order and permitting duplicates; it fails with an out-of-bounds error,
writing no output, when any position is not below `size`. -/
def gather_strings (c : NVCategory) (pos : List Nat) : Except CatError (List Row) :=
  if pos.all (fun p => decide (p < c.values.length)) then
    .ok (pos.map (fun p => (c.values.getD p none).bind (fun code => c.keys[code]?)))
  else
    .error .outOfBounds

/-- A store of live Category Engine instances, addressed by handle (index).
Used to model the object level of the C++ API, where derivation operations
take a receiver object and return a distinct new object. -/
abbrev Store := List NVCategory

/-- Modelled from the spec (section 4.4): at the object level,
`add_strings` allocates an entirely new instance (a fresh handle) built
from the receiver and the new rows; the receiver's storage is not written.
Returns the updated store and the fresh handle. -/
def add_strings_op (st : Store) (h : Nat) (new : List Row) : Store × Nat :=
  (st ++ [add_strings (st.getD h ⟨[], []⟩) new], st.length)

/-- Modelled from the spec (section 4.4): at the object level,
`remove_strings` allocates an entirely new instance at a fresh handle; the
receiver's storage is not written. -/
def remove_strings_op (st : Store) (h : Nat) (rem : List Bytes) : Store × Nat :=
  (st ++ [remove_strings (st.getD h ⟨[], []⟩) rem], st.length)

end NVCategory

/-- The worked example input of the spec (section 8.6):
`["b","a","b",null,"c"]` with bytes "a"=97, "b"=98, "c"=99. -/
def exRows : List Row := [some [98], some [97], some [98], none, some [99]]

namespace NVCategory


theorem lookupCode_eq_none_iff (ks : List Bytes) (s : Bytes) :
    lookupCode ks s = none ↔ s ∉ ks := by
  induction ks with
  | nil => simp [lookupCode]
  | cons k ks ih =>
    by_cases hs : s = k
    · simp [lookupCode, hs]
    · simp [lookupCode, hs, ih]

theorem lookupCode_lt (ks : List Bytes) (s : Bytes) (i : Nat)
    (h : lookupCode ks s = some i) : i < ks.length := by
  induction ks generalizing i with
  | nil => simp [lookupCode] at h
  | cons k ks ih =>
    by_cases hs : s = k
    · simp [lookupCode, hs] at h
      simp only [List.length_cons]
      omega
    · simp [lookupCode, hs] at h
      obtain ⟨j, hj, rfl⟩ := h
      have := ih j hj
      simp only [List.length_cons]
      omega

theorem lookupCode_get (ks : List Bytes) (s : Bytes) (i : Nat)
    (h : lookupCode ks s = some i) : ks[i]? = some s := by
  induction ks generalizing i with
  | nil => simp [lookupCode] at h
  | cons k ks ih =>
    by_cases hs : s = k
    · simp [lookupCode, hs] at h
      subst hs
      simp [← h]
    · simp [lookupCode, hs] at h
      obtain ⟨j, hj, rfl⟩ := h
      simpa using ih j hj

theorem lookupCode_of_mem (ks : List Bytes) (s : Bytes) (h : s ∈ ks) :
    ∃ i, lookupCode ks s = some i ∧ ks[i]? = some s := by
  cases hl : lookupCode ks s with
  | none => exact absurd h ((lookupCode_eq_none_iff ks s).mp hl)
  | some i => exact ⟨i, rfl, lookupCode_get ks s i hl⟩

theorem mem_sortedKeys (rows : List Row) (s : Bytes) :
    s ∈ sortedKeys rows ↔ some s ∈ rows := by
  simp [sortedKeys, List.mem_insertionSort, List.mem_dedup, List.mem_filterMap]

theorem nodup_sortedKeys (rows : List Row) : (sortedKeys rows).Nodup :=
  ((List.perm_insertionSort _ _).nodup_iff).mpr ((rows.filterMap id).nodup_dedup)

theorem length_sortedKeys (rows : List Row) :
    (sortedKeys rows).length = ((rows.filterMap id).dedup).length :=
  (List.perm_insertionSort _ _).length_eq

theorem sorted_le_sortedKeys (rows : List Row) :
    (sortedKeys rows).Sorted (fun a b : Bytes => a ≤ b) :=
  List.sorted_insertionSort _ _

theorem sorted_lt_sortedKeys (rows : List Row) :
    (sortedKeys rows).Sorted (fun a b : Bytes => a < b) :=
  ((sorted_le_sortedKeys rows).and (nodup_sortedKeys rows)).imp
    (fun h => lt_of_le_of_ne h.1 h.2)

theorem values_create (rows : List Row) :
    (create_from_rows rows).values =
      rows.map (fun r => r.bind (lookupCode (sortedKeys rows))) := rfl

theorem keys_create (rows : List Row) :
    (create_from_rows rows).keys = sortedKeys rows := rfl

theorem size_create (rows : List Row) : size (create_from_rows rows) = rows.length := by
  simp [size, values_create]

theorem to_strings_create (rows : List Row) :
    to_strings (create_from_rows rows) = rows := by
  unfold to_strings
  rw [values_create, keys_create, List.map_map]
  conv_rhs => rw [← List.map_id rows]
  apply List.map_congr_left
  intro r hr
  cases r with
  | none => rfl
  | some s =>
    obtain ⟨i, hi, hget⟩ :=
      lookupCode_of_mem (sortedKeys rows) s ((mem_sortedKeys rows s).mpr hr)
    simp [Function.comp, hi, hget]

theorem getD_values_create_lt (rows : List Row) (i : Nat) (code : Nat)
    (h : (create_from_rows rows).values.getD i none = some code) :
    code < keys_size (create_from_rows rows) := by
  by_cases hi : i < (create_from_rows rows).values.length
  · rw [List.getD_eq_getElem _ _ hi] at h
    have hmem : some code ∈ (create_from_rows rows).values := h ▸ List.getElem_mem hi
    rw [values_create] at hmem
    obtain ⟨r, _, hr⟩ := List.mem_map.mp hmem
    cases r with
    | none => simp at hr
    | some s =>
      have hcode : lookupCode (sortedKeys rows) s = some code := hr
      have := lookupCode_lt _ _ _ hcode
      simpa [keys_size, keys_create] using this
  · rw [List.getD_eq_default _ _ (le_of_not_lt hi)] at h
    exact absurd h (by simp)

theorem mem_get_indexes_for (c : NVCategory) (code i : Nat) :
    i ∈ get_indexes_for c code ↔ c.values.getD i none = some code := by
  unfold get_indexes_for
  rw [List.mem_filter, List.mem_range]
  constructor
  · rintro ⟨-, hp⟩
    exact eq_of_beq hp
  · intro hp
    refine ⟨?_, by rw [List.getD_eq_getElem?_getD] at hp; simp [hp]⟩
    by_contra hn
    rw [List.getD_eq_default _ _ (le_of_not_lt hn)] at hp
    exact absurd hp (by simp)

theorem sorted_get_indexes_for (c : NVCategory) (code : Nat) :
    (get_indexes_for c code).Sorted (fun a b : Nat => a < b) :=
  (List.pairwise_lt_range _).filter _

theorem null_bitarray_getElem (rows : List Row) (b : Bool) (i : Nat) :
    (create_null_bitarray (create_from_rows rows) b)[i]? =
      (rows[i]?).map (fun r =>
        match r with
        | none => true
        | some s => b && s.isEmpty) := by
  cases hr : rows[i]? with
  | none =>
    have hv : (create_from_rows rows).values[i]? = none := by
      rw [values_create, List.getElem?_map, hr]
      rfl
    rw [create_null_bitarray, List.getElem?_map, hv]
    rfl
  | some r =>
    have hv : (create_from_rows rows).values[i]? =
        some (r.bind (lookupCode (sortedKeys rows))) := by
      rw [values_create, List.getElem?_map, hr]
      rfl
    rw [create_null_bitarray, List.getElem?_map, hv]
    cases r with
    | none => rfl
    | some s =>
      have hmem : some s ∈ rows := by
        obtain ⟨h, he⟩ := List.getElem?_eq_some.mp hr
        exact he ▸ List.getElem_mem h
      obtain ⟨j, hj, hget⟩ :=
        lookupCode_of_mem (sortedKeys rows) s ((mem_sortedKeys rows s).mpr hmem)
      simp [hj, keys_create, hget]

end NVCategory

open NVCategory

/-- C1: for every String Value Source, construction produces a Key Table
holding exactly the distinct non-null values, sorted strictly ascending in
byte/lexicographic order, and a Code Map with one entry per input row whose
entry at row `i` is the position of row `i`'s value in the Key Table, or the
null sentinel for a null row; hence `keys_size` is the number of distinct
non-null input values and `size` is the row count. -/
theorem C1_construction (rows : List Row) :
    size (create_from_rows rows) = rows.length ∧
    keys_size (create_from_rows rows) = ((rows.filterMap id).dedup).length ∧
    (create_from_rows rows).keys.Sorted (fun a b : Bytes => a < b) ∧
    (create_from_rows rows).keys.Nodup ∧
    (∀ s : Bytes, s ∈ (create_from_rows rows).keys ↔ some s ∈ rows) ∧
    (∀ i : Nat, rows[i]? = some none → (get_values (create_from_rows rows))[i]? = some none) ∧
    (∀ (i : Nat) (s : Bytes), rows[i]? = some (some s) →
      ∃ j : Nat, (get_values (create_from_rows rows))[i]? = some (some j) ∧
        (create_from_rows rows).keys[j]? = some s) := by
  refine ⟨size_create rows, ?_, sorted_lt_sortedKeys rows, nodup_sortedKeys rows,
    fun s => mem_sortedKeys rows s, ?_, ?_⟩
  · rw [keys_size, keys_create]
    exact length_sortedKeys rows
  · intro i hi
    rw [get_values, values_create, List.getElem?_map, hi]
    rfl
  · intro i s hi
    have hmem : some s ∈ rows := by
      obtain ⟨h, he⟩ := List.getElem?_eq_some.mp hi
      exact he ▸ List.getElem_mem h
    obtain ⟨j, hj, hget⟩ :=
      lookupCode_of_mem (sortedKeys rows) s ((mem_sortedKeys rows s).mpr hmem)
    refine ⟨j, ?_, hget⟩
    rw [get_values, values_create, List.getElem?_map, hi]
    simp [hj]

/-- Witness for C1 at the spec's worked example `["b","a","b",null,"c"]`. -/
theorem C1_construction_witness :
    (get_values (create_from_rows exRows))[3]? = some none ∧
    (∃ j : Nat, (get_values (create_from_rows exRows))[0]? = some (some j) ∧
      (create_from_rows exRows).keys[j]? = some [98]) :=
  ⟨(C1_construction exRows).2.2.2.2.2.1 3 (by decide),
   (C1_construction exRows).2.2.2.2.2.2 0 [98] (by decide)⟩

/-- C2: `to_strings` decodes Code Map entry `i` to its key text (null for
the null sentinel), and applied to a constructed instance it reproduces the
originating input row-for-row (decode after encode is the identity). -/
theorem C2_round_trip (rows : List Row) (c : NVCategory) (i : Nat) :
    to_strings (create_from_rows rows) = rows ∧
    (to_strings c)[i]? =
      ((get_values c)[i]?).map (fun e => e.bind (fun code => c.keys[code]?)) :=
  ⟨to_strings_create rows, by rw [to_strings, get_values, List.getElem?_map]⟩

/-- C3: `get_indexes_for` by code returns exactly the row indices whose Code
Map entry equals the code, in ascending row-index order; the string form
resolves the string to its key code first and returns the same set, and
returns an empty result when the key does not exist. -/
theorem C3_get_indexes_for (c : NVCategory) (code : Nat) (s : Bytes) :
    (get_indexes_for c code).Sorted (fun a b : Nat => a < b) ∧
    (∀ i : Nat, i ∈ get_indexes_for c code ↔ (get_values c).getD i none = some code) ∧
    (s ∉ c.keys → get_indexes_for_str c s = []) ∧
    (∀ j : Nat, lookupCode c.keys s = some j →
      get_indexes_for_str c s = get_indexes_for c j) := by
  refine ⟨sorted_get_indexes_for c code, fun i => mem_get_indexes_for c code i, ?_, ?_⟩
  · intro hs
    rw [get_indexes_for_str, (lookupCode_eq_none_iff c.keys s).mpr hs]
  · intro j hj
    rw [get_indexes_for_str, hj]

/-- Witness for C3 at the spec's worked example: rows 0 and 2 carry code 1
("b"), and looking up "c" resolves to code 2. -/
theorem C3_get_indexes_for_witness :
    2 ∈ get_indexes_for (create_from_rows exRows) 1 ∧
    get_indexes_for_str (create_from_rows exRows) [99] =
      get_indexes_for (create_from_rows exRows) 2 :=
  ⟨((C3_get_indexes_for (create_from_rows exRows) 1 [99]).2.1 2).mpr (by decide),
   (C3_get_indexes_for (create_from_rows exRows) 1 [99]).2.2.2 2 (by decide)⟩

/-- C4: `add_strings` yields an instance whose logical row sequence is the
original rows followed by the new rows in that order, whose Key Table is the
re-sorted union of the original keys and the genuinely new distinct values,
and whose codes are recomputed from scratch over that union; at the spec's
worked example, adding `["d","a"]` to the instance built from
`["b","a","b",null,"c"]` yields keys `["a","b","c","d"]`, size 7 and Code
Map `[1,0,1,null,2,3,0]`. -/
theorem C4_add_strings (rows new : List Row) :
    to_strings (add_strings (create_from_rows rows) new) =
      to_strings (create_from_rows rows) ++ new ∧
    size (add_strings (create_from_rows rows) new) =
      size (create_from_rows rows) + new.length ∧
    (add_strings (create_from_rows rows) new).keys.Sorted (fun a b : Bytes => a < b) ∧
    (add_strings (create_from_rows rows) new).keys.Nodup ∧
    (∀ s : Bytes, s ∈ (add_strings (create_from_rows rows) new).keys ↔
      s ∈ (create_from_rows rows).keys ∨ some s ∈ new) ∧
    add_strings (create_from_rows exRows) [some [100], some [97]] =
      { keys := [[97], [98], [99], [100]],
        values := [some 1, some 0, some 1, none, some 2, some 3, some 0] } := by
  have hts : to_strings (create_from_rows rows) = rows := to_strings_create rows
  have hadd : add_strings (create_from_rows rows) new = create_from_rows (rows ++ new) := by
    rw [add_strings, hts]
  refine ⟨?_, ?_, ?_, ?_, ?_, by decide⟩
  · rw [hadd, to_strings_create, hts]
  · rw [hadd, size_create, size_create, List.length_append]
  · rw [hadd]
    exact sorted_lt_sortedKeys (rows ++ new)
  · rw [hadd]
    exact nodup_sortedKeys (rows ++ new)
  · intro s
    simp [hadd, keys_create, mem_sortedKeys, List.mem_append]

/-- C5: `get_value` by string returns the code of the matching key when it
is present in the Key Table and the not-found sentinel -1 otherwise, without
failing; `get_value` by row index returns the Code Map entry at the row when
the index is below `size` and fails with an out-of-bounds error, distinct
from the not-found signal, for every index at or above `size`. -/
theorem C5_get_value (rows : List Row) (s : Bytes) (i : Nat) :
    (some s ∈ rows → ∃ j : Nat, get_value_str (create_from_rows rows) s = (j : Int) ∧
      (create_from_rows rows).keys[j]? = some s) ∧
    (some s ∉ rows → get_value_str (create_from_rows rows) s = -1) ∧
    (i < size (create_from_rows rows) →
      get_value (create_from_rows rows) i =
        .ok (codeToInt ((get_values (create_from_rows rows)).getD i none))) ∧
    (size (create_from_rows rows) ≤ i →
      get_value (create_from_rows rows) i = .error .outOfBounds) := by
  refine ⟨?_, ?_, ?_, ?_⟩
  · intro hmem
    obtain ⟨j, hj, hget⟩ :=
      lookupCode_of_mem (sortedKeys rows) s ((mem_sortedKeys rows s).mpr hmem)
    refine ⟨j, ?_, hget⟩
    rw [get_value_str, keys_create, hj]
    rfl
  · intro hmem
    have hno : s ∉ sortedKeys rows := fun hin => hmem ((mem_sortedKeys rows s).mp hin)
    rw [get_value_str, keys_create, (lookupCode_eq_none_iff _ _).mpr hno]
    rfl
  · intro hi
    have hi2 : i < (create_from_rows rows).values.length := hi
    rw [get_value, if_pos hi2]
    rfl
  · intro hi
    have hi2 : (create_from_rows rows).values.length ≤ i := hi
    rw [get_value, if_neg (not_lt.mpr hi2)]

/-- Witness for C5: "c" resolves to a valid code on the worked example, and
row index 9 (beyond the 5 rows) fails with the out-of-bounds error. -/
theorem C5_get_value_witness :
    (∃ j : Nat, get_value_str (create_from_rows exRows) [99] = (j : Int) ∧
      (create_from_rows exRows).keys[j]? = some [99]) ∧
    get_value (create_from_rows exRows) 9 = .error .outOfBounds :=
  ⟨(C5_get_value exRows [99] 9).1 (by decide),
   (C5_get_value exRows [99] 9).2.2.2 (by decide)⟩

/-- C6: at the object level, `add_strings` and `remove_strings` allocate an
entirely new instance at a fresh handle; the receiver's slot of the store is
unchanged by either operation (so the receiver keeps its size, keys and Code
Map and stays valid for every query), and the returned handle is distinct
from the receiver's. -/
theorem C6_derivation_frame (st : Store) (h : Nat) (new : List Row) (rem : List Bytes)
    (hh : h < st.length) :
    ((add_strings_op st h new).1)[h]? = st[h]? ∧
    (add_strings_op st h new).2 ≠ h ∧
    ((add_strings_op st h new).1)[(add_strings_op st h new).2]? =
      some (add_strings (st.getD h ⟨[], []⟩) new) ∧
    ((remove_strings_op st h rem).1)[h]? = st[h]? ∧
    (remove_strings_op st h rem).2 ≠ h ∧
    ((remove_strings_op st h rem).1)[(remove_strings_op st h rem).2]? =
      some (remove_strings (st.getD h ⟨[], []⟩) rem) := by
  refine ⟨List.getElem?_append_left hh, ne_of_gt hh, ?_,
    List.getElem?_append_left hh, ne_of_gt hh, ?_⟩
  · show (st ++ [add_strings (st.getD h ⟨[], []⟩) new])[st.length]? = _
    rw [List.getElem?_append_right (le_refl _)]
    simp
  · show (st ++ [remove_strings (st.getD h ⟨[], []⟩) rem])[st.length]? = _
    rw [List.getElem?_append_right (le_refl _)]
    simp

/-- Witness for C6: deriving from a one-instance store leaves the receiver
slot untouched. -/
theorem C6_derivation_frame_witness :
    ((add_strings_op [create_from_rows exRows] 0 [some [100]]).1)[0]? =
      [create_from_rows exRows][0]? ∧
    ((remove_strings_op [create_from_rows exRows] 0 [[98]]).1)[0]? =
      [create_from_rows exRows][0]? :=
  ⟨(C6_derivation_frame [create_from_rows exRows] 0 [some [100]] [[98]] (by decide)).1,
   (C6_derivation_frame [create_from_rows exRows] 0 [some [100]] [[98]] (by decide)).2.2.2.1⟩

/-- C7: `gather_strings` fails with an out-of-bounds error, producing no
output, whenever some given position is at or above `size`; when every
position is in range it returns exactly the decoded Code Map rows at the
caller-given positions in caller order, duplicates permitted (illustrated by
gathering row 2 twice on the worked example). -/
theorem C7_gather_strings (c : NVCategory) (pos : List Nat) :
    (¬ (∀ p ∈ pos, p < size c) → gather_strings c pos = .error .outOfBounds) ∧
    ((∀ p ∈ pos, p < size c) →
      gather_strings c pos = .ok (pos.map (fun p => (to_strings c).getD p none))) ∧
    gather_strings (create_from_rows exRows) [2, 2] = .ok [some [98], some [98]] := by
  refine ⟨?_, ?_, by rfl⟩
  · intro hbad
    rw [gather_strings, if_neg]
    intro hall
    exact hbad (fun p hp => of_decide_eq_true (List.all_eq_true.mp hall p hp))
  · intro hgood
    have hcond : (pos.all fun p => decide (p < c.values.length)) = true :=
      List.all_eq_true.mpr (fun p hp => decide_eq_true (hgood p hp))
    have hmap : pos.map (fun p => (c.values.getD p none).bind (fun code => c.keys[code]?)) =
        pos.map (fun p => (to_strings c).getD p none) := by
      apply List.map_congr_left
      intro p hp
      have hplt : p < c.values.length := hgood p hp
      simp [to_strings, List.getD_eq_getElem?_getD, List.getElem?_map,
        List.getElem?_eq_getElem hplt]
    rw [gather_strings, if_pos hcond, hmap]

/-- Witness for C7: on the worked example, position 5 is out of range and
fails, while the duplicate in-range positions 2,2 gather row 2 twice. -/
theorem C7_gather_strings_witness :
    gather_strings (create_from_rows exRows) [5] = .error .outOfBounds ∧
    gather_strings (create_from_rows exRows) [2, 2] =
      .ok ([2, 2].map (fun p => (to_strings (create_from_rows exRows)).getD p none)) :=
  ⟨(C7_gather_strings (create_from_rows exRows) [5]).1 (by decide),
   (C7_gather_strings (create_from_rows exRows) [2, 2]).2.1 (by decide)⟩

/-- C8: removing values none of which occurs among the instance's rows
succeeds and yields an instance value-wise identical to the original: the
very same `size`, `keys_size` and Code Map (a logically equal clone). -/
theorem C8_remove_noop (rows : List Row) (rem : List Bytes)
    (hnone : ∀ t ∈ rem, some t ∉ rows) :
    remove_strings (create_from_rows rows) rem = create_from_rows rows ∧
    size (remove_strings (create_from_rows rows) rem) = size (create_from_rows rows) ∧
    keys_size (remove_strings (create_from_rows rows) rem) =
      keys_size (create_from_rows rows) ∧
    get_values (remove_strings (create_from_rows rows) rem) =
      get_values (create_from_rows rows) := by
  have heq : remove_strings (create_from_rows rows) rem = create_from_rows rows := by
    rw [remove_strings, to_strings_create]
    congr 1
    apply List.filter_eq_self.mpr
    intro r hr
    cases r with
    | none => rfl
    | some s =>
      simp only [Bool.not_eq_true']
      simp
      exact fun hs => hnone s hs hr
  exact ⟨heq, by rw [heq], by rw [heq], by rw [heq]⟩

/-- Witness for C8: removing the absent value "d" from the worked example
leaves the instance unchanged. -/
theorem C8_remove_noop_witness :
    remove_strings (create_from_rows exRows) [[100]] = create_from_rows exRows :=
  (C8_remove_noop exRows [[100]] (by decide)).1

/-- C9: `create_null_bitarray` yields one bit per row, set exactly when the
row's Code Map entry is the null sentinel; under the caller-selected
`emptyIsNull` policy, rows holding a zero-length non-null string are also
marked; on the worked example the bits are `[0,0,0,1,0]`. -/
theorem C9_null_bitarray (rows : List Row) (i : Nat) :
    (create_null_bitarray (create_from_rows rows) false).length =
      size (create_from_rows rows) ∧
    ((create_null_bitarray (create_from_rows rows) false)[i]? = some true ↔
      rows[i]? = some none) ∧
    ((create_null_bitarray (create_from_rows rows) true)[i]? = some true ↔
      (rows[i]? = some none ∨ rows[i]? = some (some []))) ∧
    create_null_bitarray (create_from_rows exRows) false =
      [false, false, false, true, false] := by
  refine ⟨by simp [create_null_bitarray, size], ?_, ?_, by decide⟩
  · rw [null_bitarray_getElem]
    cases hr : rows[i]? with
    | none => simp
    | some r =>
      cases r with
      | none => simp
      | some s => simp
  · rw [null_bitarray_getElem]
    cases hr : rows[i]? with
    | none => simp
    | some r =>
      cases r with
      | none => simp
      | some s => simp [List.isEmpty_iff]

/-- C10: every successful `get_value` result (by row or by string) is either
the reserved negative sentinel -1 (null / not-found) or a valid code: a
non-negative integer strictly below `keys_size`; the sentinel category is
therefore disjoint from the set of valid codes. -/
theorem C10_code_range (rows : List Row) (s : Bytes) (i : Nat) (v : Int) :
    (get_value_str (create_from_rows rows) s = -1 ∨
      (0 ≤ get_value_str (create_from_rows rows) s ∧
        get_value_str (create_from_rows rows) s <
          (keys_size (create_from_rows rows) : Int))) ∧
    (get_value (create_from_rows rows) i = .ok v →
      v = -1 ∨ (0 ≤ v ∧ v < (keys_size (create_from_rows rows) : Int))) := by
  constructor
  · rw [get_value_str]
    cases hl : lookupCode (create_from_rows rows).keys s with
    | none => exact Or.inl rfl
    | some j =>
      refine Or.inr ⟨Int.natCast_nonneg j, ?_⟩
      have hjlt := lookupCode_lt _ s j hl
      show ((j : Nat) : Int) < (keys_size (create_from_rows rows) : Int)
      exact_mod_cast hjlt
  · intro hok
    rw [get_value] at hok
    by_cases hi : i < (create_from_rows rows).values.length
    · rw [if_pos hi] at hok
      have hv : codeToInt ((create_from_rows rows).values.getD i none) = v := by
        injection hok
      cases hd : (create_from_rows rows).values.getD i none with
      | none =>
        left
        rw [← hv, hd]
        rfl
      | some code =>
        right
        have hlt := getD_values_create_lt rows i code hd
        rw [← hv, hd]
        refine ⟨Int.natCast_nonneg code, ?_⟩
        show ((code : Nat) : Int) < ((keys_size (create_from_rows rows) : Nat) : Int)
        exact_mod_cast hlt
    · rw [if_neg hi] at hok
      exact absurd hok (by simp)

/-- Witness for C10: row 0 of the worked example carries the valid code 1,
which is non-negative and below `keys_size = 3`. -/
theorem C10_code_range_witness :
    (1 : Int) = -1 ∨ ((0 : Int) ≤ 1 ∧ (1 : Int) <
      (keys_size (create_from_rows exRows) : Int)) :=
  (C10_code_range exRows [100] 0 1).2 (by rfl)
